import Mathlib

/-!
Verification of the span-based handwriting classifier of
`ocr_handwriting.py`: offset-set construction from style annotations,
per-word tri-state classification, line-level majority aggregation,
document statistics, and the handwritten-transcript word wrap.
Strings are modelled as lists of characters; character offsets are
integers (Python `range` accepts any integers); confidences are exact
rationals.
-/

namespace OcrHandwriting

/-- A character span as returned by the service: a start offset and a
length, denoting the half-open range `[offset, offset + length)`. -/
structure Span where
  offset : Int
  length : Int
deriving DecidableEq, Repr

/-- The offsets enumerated by Python `range(offset, offset + length)`:
empty when `length ≤ 0`. -/
def Span.offsets (s : Span) : List Int :=
  (List.range s.length.toNat).map (fun (i : Nat) => s.offset + (i : Int))

/-- Python `range(start, stop)` as a list of integers. -/
def rangeList (start stop : Int) : List Int :=
  (List.range (stop - start).toNat).map (fun (i : Nat) => start + (i : Int))

/-- A style annotation: `is_handwritten` is `none` (unknown), `some true`
(handwritten) or `some false` (printed); `spans` lists the covered
ranges. -/
structure StyleAnnotation where
  is_handwritten : Option Bool
  spans : List Span
deriving DecidableEq, Repr

/-- The pair of offset sets built by `classify_spans`. -/
structure SpanMap where
  handwritten : Finset Int
  printed : Finset Int
deriving DecidableEq

/-- Adding every offset of every span of a list to a target set — the
inner two loops of `classify_spans`. -/
def addSpans (target : Finset Int) (spans : List Span) : Finset Int :=
  spans.foldl (fun acc sp => sp.offsets.foldl (fun a o => insert o a) acc) target

/-- The body of the `for style in styles` loop of `classify_spans`. -/
def classifyStep (m : SpanMap) (st : StyleAnnotation) : SpanMap :=
  match st.is_handwritten with
  | none => m
  | some true => { m with handwritten := addSpans m.handwritten st.spans }
  | some false => { m with printed := addSpans m.printed st.spans }

/-- `classify_spans(styles)`: builds the handwritten and printed offset
sets, skipping annotations whose `is_handwritten` is `None`. -/
def classify_spans (styles : List StyleAnnotation) : SpanMap :=
  styles.foldl classifyStep { handwritten := ∅, printed := ∅ }

/-- A recognized word: content, optional anchoring span, optional
confidence. -/
structure Word where
  content : List Char
  span : Option Span
  confidence : Option ℚ
deriving DecidableEq

/-- The overlap count used at lines 65–66 of the source: how many offsets
of `range(q.offset, q.offset + q.length)` lie in the set `s`. -/
def count_overlap (s : Finset Int) (q : Span) : Nat :=
  (rangeList q.offset (q.offset + q.length)).countP (fun o => o ∈ s)

/-- `word_is_handwritten(word, span_map)`: `none` when the word has no
span; otherwise compares handwritten vs printed coverage counts over the
word's own range. -/
def word_is_handwritten (word : Word) (span_map : SpanMap) : Option Bool :=
  match word.span with
  | none => none
  | some sp =>
    let hw_count := count_overlap span_map.handwritten sp
    let pr_count := count_overlap span_map.printed sp
    if hw_count > pr_count then some true
    else if pr_count > hw_count then some false
    else none

/-- A recognized line: its text and its spans (the source associates words
to lines through these spans). -/
structure Line where
  content : List Char
  spans : List Span
deriving DecidableEq

/-- The word list the source builds for a line (lines 201–205): words that
have a span whose start offset falls inside one of the line's spans;
words without a span, or lines without spans, yield no association. -/
def line_words (line : Line) (words : List Word) : List Word :=
  words.filter (fun w =>
    match w.span with
    | none => false
    | some wsp =>
      !line.spans.isEmpty &&
        line.spans.any (fun s =>
          decide (wsp.offset ≥ s.offset) && decide (wsp.offset < s.offset + s.length)))

/-- The count of Handwritten-verdict words among a line's associated
words (line 207). -/
def line_hw_count (line : Line) (words : List Word) (m : SpanMap) : Nat :=
  (line_words line words).countP (fun w => word_is_handwritten w m == some true)

/-- `len(line_words) or 1` (line 208). -/
def line_total (line : Line) (words : List Word) : Nat :=
  if (line_words line words).length = 0 then 1 else (line_words line words).length

/-- The line tag test of line 210: `true` means the `✍ HW` tag, `false`
the `PR` tag. -/
def line_tag_is_hw (line : Line) (words : List Word) (m : SpanMap) : Bool :=
  decide ((line_hw_count line words m : ℚ) / (line_total line words : ℚ) > 0.5)

/-- A page: its number and its word and line lists (`page.words or []`
and `page.lines or []` in the source). -/
structure Page where
  page_number : Nat
  words : List Word
  lines : List Line
deriving DecidableEq

/-- The page's Handwritten-verdict words (`hw is True` branch). -/
def page_hw_words (p : Page) (m : SpanMap) : List Word :=
  p.words.filter (fun w => word_is_handwritten w m == some true)

/-- The page's Printed-verdict words (`hw is False` branch). -/
def page_pr_words (p : Page) (m : SpanMap) : List Word :=
  p.words.filter (fun w => word_is_handwritten w m == some false)

/-- The page's unclassified words (the `else` branch). -/
def page_unknown_words (p : Page) (m : SpanMap) : List Word :=
  p.words.filter (fun w => word_is_handwritten w m == none)

/-- `total_words`: accumulated over the page loop. -/
def doc_total_words (pages : List Page) : Nat :=
  pages.foldl (fun acc p => acc + p.words.length) 0

/-- `total_hw_words`: accumulated over the page loop. -/
def doc_total_hw_words (pages : List Page) (m : SpanMap) : Nat :=
  pages.foldl (fun acc p => acc + (page_hw_words p m).length) 0

/-- The printed-word count the summary prints: `total_words - total_hw_words`. -/
def doc_printed_words (pages : List Page) (m : SpanMap) : Nat :=
  doc_total_words pages - doc_total_hw_words pages m

/-- `all_confidences`: one entry `word.confidence or 0` per word, appended
page by page in document order. -/
def all_confidences (pages : List Page) : List ℚ :=
  pages.foldl (fun acc p => acc ++ p.words.map (fun w => w.confidence.getD 0)) []

/-- `avg_conf` of the summary: the mean of `all_confidences`, `0` when it
is empty. -/
def doc_avg_conf (pages : List Page) : ℚ :=
  if (all_confidences pages).length = 0 then 0
  else (all_confidences pages).sum / ((all_confidences pages).length : ℚ)

/-! ### Transcript reconstruction (lines 281–299 of the source) -/

/-- The four-space indent the wrap loop starts each line with. -/
def indent : List Char := [' ', ' ', ' ', ' ']

/-- Python `str.split()` (no separator): split on runs of whitespace,
discarding empty pieces. -/
def splitWS : List Char → List (List Char)
  | [] => []
  | [c] => if c.isWhitespace then [] else [[c]]
  | c :: d :: rest =>
    if c.isWhitespace then splitWS (d :: rest)
    else if d.isWhitespace then [c] :: splitWS rest
    else
      match splitWS (d :: rest) with
      | [] => [[c]]
      | t :: ts => (c :: t) :: ts

/-- Python `" ".join(ws)`. -/
def joinSpace : List (List Char) → List Char
  | [] => []
  | [w] => w
  | w :: rest => w ++ ' ' :: joinSpace rest

/-- One iteration of the wrap loop: flush the current line when adding
the word would exceed 80 characters, then append the word and a
trailing space. -/
def wrapStep (st : List (List Char) × List Char) (w : List Char) :
    List (List Char) × List Char :=
  if st.2.length + w.length + 1 > 80 then (st.1 ++ [st.2], indent ++ w ++ [' '])
  else (st.1, st.2 ++ w ++ [' '])

/-- The whole wrap loop: fold over the words, then emit the tail line
when `line.strip()` is nonempty. -/
def wrapWords (ws : List (List Char)) : List (List Char) :=
  let st := ws.foldl wrapStep ([], indent)
  if st.2.any (fun c => !c.isWhitespace) then st.1 ++ [st.2] else st.1

/-- The transcript lines emitted for one page: nothing when the page has
no Handwritten-verdict words, otherwise the handwritten words' contents
joined with single spaces, re-split on whitespace, and wrapped. -/
def page_transcript (p : Page) (m : SpanMap) : List (List Char) :=
  let hw := page_hw_words p m
  if hw.isEmpty then []
  else wrapWords (splitWS (joinSpace (hw.map (fun w => w.content))))

/-- A whitespace-free nonempty chunk — what `str.split()` produces. -/
def IsToken (t : List Char) : Prop :=
  t ≠ [] ∧ ∀ c ∈ t, c.isWhitespace = false

/-- Boolean form of `IsToken`, for concrete evaluation. -/
def isTokenB (t : List Char) : Bool :=
  !t.isEmpty && t.all (fun c => !c.isWhitespace)

/-- Transcribed from the wording of the spec (§4.3): counts the word's
span offsets covered by each set and compares. Kept separate from the
source-derived `word_is_handwritten` so the two can be compared. -/
def spec_wordVerdict (word : Word) (m : SpanMap) : Option Bool :=
  match word.span with
  | none => none
  | some sp =>
    let hw := sp.offsets.countP (fun o => o ∈ m.handwritten)
    let pr := sp.offsets.countP (fun o => o ∈ m.printed)
    if hw > pr then some true
    else if pr > hw then some false
    else none

/-! ### Helper lemmas about spans and coverage sets -/

theorem mem_rangeList {start stop o : Int} :
    o ∈ rangeList start stop ↔ start ≤ o ∧ o < stop := by
  simp only [rangeList, List.mem_map, List.mem_range]
  constructor
  · rintro ⟨i, hi, rfl⟩
    omega
  · rintro ⟨h1, h2⟩
    exact ⟨(o - start).toNat, by omega, by omega⟩

theorem mem_offsets {s : Span} {o : Int} :
    o ∈ s.offsets ↔ s.offset ≤ o ∧ o < s.offset + s.length := by
  simp only [Span.offsets, List.mem_map, List.mem_range]
  constructor
  · rintro ⟨i, hi, rfl⟩
    omega
  · rintro ⟨h1, h2⟩
    exact ⟨(o - s.offset).toNat, by omega, by omega⟩

theorem rangeList_eq_offsets (s : Span) :
    rangeList s.offset (s.offset + s.length) = s.offsets := by
  simp [rangeList, Span.offsets, add_sub_cancel_left]

theorem mem_foldl_insert {l : List Int} {t : Finset Int} {o : Int} :
    o ∈ l.foldl (fun a x => insert x a) t ↔ o ∈ t ∨ o ∈ l := by
  induction l generalizing t with
  | nil => simp
  | cons x xs ih =>
    simp only [List.foldl_cons, ih, Finset.mem_insert, List.mem_cons]
    tauto

theorem mem_addSpans {sps : List Span} {t : Finset Int} {o : Int} :
    o ∈ addSpans t sps ↔ o ∈ t ∨ ∃ sp ∈ sps, o ∈ sp.offsets := by
  induction sps generalizing t with
  | nil => simp [addSpans]
  | cons sp sps ih =>
    show o ∈ addSpans (sp.offsets.foldl (fun a x => insert x a) t) sps ↔ _
    rw [ih, mem_foldl_insert]
    simp only [List.mem_cons]
    constructor
    · rintro ((h | h) | ⟨x, hx, ho⟩)
      · exact Or.inl h
      · exact Or.inr ⟨sp, Or.inl rfl, h⟩
      · exact Or.inr ⟨x, Or.inr hx, ho⟩
    · rintro (h | ⟨x, (rfl | hx), ho⟩)
      · exact Or.inl (Or.inl h)
      · exact Or.inl (Or.inr ho)
      · exact Or.inr ⟨x, hx, ho⟩

theorem classify_foldl_mem (styles : List StyleAnnotation) (m0 : SpanMap) (o : Int) :
    (o ∈ (styles.foldl classifyStep m0).handwritten ↔
       o ∈ m0.handwritten ∨
         ∃ st ∈ styles, st.is_handwritten = some true ∧ ∃ sp ∈ st.spans, o ∈ sp.offsets)
    ∧ (o ∈ (styles.foldl classifyStep m0).printed ↔
       o ∈ m0.printed ∨
         ∃ st ∈ styles, st.is_handwritten = some false ∧ ∃ sp ∈ st.spans, o ∈ sp.offsets) := by
  induction styles generalizing m0 with
  | nil => simp
  | cons st sts ih =>
    simp only [List.foldl_cons, List.mem_cons]
    rcases h : st.is_handwritten with _ | b
    · have hstep : classifyStep m0 st = m0 := by simp [classifyStep, h]
      rw [hstep]
      refine ⟨((ih m0).1).trans ?_, ((ih m0).2).trans ?_⟩ <;>
        · constructor
          · rintro (hm | ⟨x, hx, hcl, hsp⟩)
            · exact Or.inl hm
            · exact Or.inr ⟨x, Or.inr hx, hcl, hsp⟩
          · rintro (hm | ⟨x, (rfl | hx), hcl, hsp⟩)
            · exact Or.inl hm
            · rw [h] at hcl; cases hcl
            · exact Or.inr ⟨x, hx, hcl, hsp⟩
    · cases b
      · have hstep : classifyStep m0 st = { m0 with printed := addSpans m0.printed st.spans } := by
          simp [classifyStep, h]
        rw [hstep]
        constructor
        · refine ((ih _).1).trans ?_
          constructor
          · rintro (hm | ⟨x, hx, hcl, hsp⟩)
            · exact Or.inl hm
            · exact Or.inr ⟨x, Or.inr hx, hcl, hsp⟩
          · rintro (hm | ⟨x, (rfl | hx), hcl, hsp⟩)
            · exact Or.inl hm
            · rw [h] at hcl; cases hcl
            · exact Or.inr ⟨x, hx, hcl, hsp⟩
        · refine ((ih _).2).trans ?_
          show o ∈ addSpans m0.printed st.spans ∨ _ ↔ _
          rw [mem_addSpans]
          constructor
          · rintro ((hm | ⟨sp, hsp, ho⟩) | ⟨x, hx, hcl, hsp⟩)
            · exact Or.inl hm
            · exact Or.inr ⟨st, Or.inl rfl, h, sp, hsp, ho⟩
            · exact Or.inr ⟨x, Or.inr hx, hcl, hsp⟩
          · rintro (hm | ⟨x, (rfl | hx), hcl, hsp⟩)
            · exact Or.inl (Or.inl hm)
            · exact Or.inl (Or.inr hsp)
            · exact Or.inr ⟨x, hx, hcl, hsp⟩
      · have hstep : classifyStep m0 st =
            { m0 with handwritten := addSpans m0.handwritten st.spans } := by
          simp [classifyStep, h]
        rw [hstep]
        constructor
        · refine ((ih _).1).trans ?_
          show o ∈ addSpans m0.handwritten st.spans ∨ _ ↔ _
          rw [mem_addSpans]
          constructor
          · rintro ((hm | ⟨sp, hsp, ho⟩) | ⟨x, hx, hcl, hsp⟩)
            · exact Or.inl hm
            · exact Or.inr ⟨st, Or.inl rfl, h, sp, hsp, ho⟩
            · exact Or.inr ⟨x, Or.inr hx, hcl, hsp⟩
          · rintro (hm | ⟨x, (rfl | hx), hcl, hsp⟩)
            · exact Or.inl (Or.inl hm)
            · exact Or.inl (Or.inr hsp)
            · exact Or.inr ⟨x, hx, hcl, hsp⟩
        · refine ((ih _).2).trans ?_
          constructor
          · rintro (hm | ⟨x, hx, hcl, hsp⟩)
            · exact Or.inl hm
            · exact Or.inr ⟨x, Or.inr hx, hcl, hsp⟩
          · rintro (hm | ⟨x, (rfl | hx), hcl, hsp⟩)
            · exact Or.inl hm
            · rw [h] at hcl; cases hcl
            · exact Or.inr ⟨x, hx, hcl, hsp⟩

/-! ### Claims C1, C3, C4, C5, C10 -/

/-- C1: for every word the classifier returns the tri-state verdict of
the spec: `none` when the word has no span, otherwise `some true` when
the handwritten coverage count of the word's span offsets exceeds the
printed one, `some false` in the opposite case, and `none` on every tie
(including both counts zero). -/
theorem c1_word_verdict (w : Word) (m : SpanMap) :
    word_is_handwritten w m = spec_wordVerdict w m := by
  rcases h : w.span with _ | sp
  · simp [word_is_handwritten, spec_wordVerdict, h]
  · simp only [word_is_handwritten, spec_wordVerdict, h, count_overlap,
      rangeList_eq_offsets]

/-- C3: indexing the style annotations puts an offset in the handwritten
set exactly when some `some true` annotation has a span containing it,
and in the printed set exactly when some `some false` annotation has a
span containing it; `none` (unknown) annotations contribute to neither
set, and offsets claimed by both kinds stay in both sets. -/
theorem c3_style_indexing (styles : List StyleAnnotation) (o : Int) :
    (o ∈ (classify_spans styles).handwritten ↔
       ∃ st ∈ styles, st.is_handwritten = some true ∧ ∃ sp ∈ st.spans, o ∈ sp.offsets)
    ∧ (o ∈ (classify_spans styles).printed ↔
       ∃ st ∈ styles, st.is_handwritten = some false ∧ ∃ sp ∈ st.spans, o ∈ sp.offsets) := by
  have h := classify_foldl_mem styles { handwritten := ∅, printed := ∅ } o
  simpa [classify_spans] using h

/-- C4: the overlap count over a built coverage set equals the number of
distinct offsets of the query range lying in the union of the raw input
spans; the query range enumerates each offset exactly once, so duplicate
coverage is never counted twice. -/
theorem c4_count_overlap_union (spans : List Span) (q : Span) :
    count_overlap (addSpans ∅ spans) q =
      ((rangeList q.offset (q.offset + q.length)).filter
        (fun o => spans.any (fun sp => decide (o ∈ sp.offsets)))).length
    ∧ (rangeList q.offset (q.offset + q.length)).Nodup := by
  constructor
  · rw [count_overlap, List.countP_eq_length_filter]
    congr 1
    apply List.filter_congr
    intro o _
    rw [Bool.eq_iff_iff]
    simp [mem_addSpans, List.any_eq_true]
  · refine List.Nodup.map ?_ (List.nodup_range _)
    intro a b hab
    simp only at hab
    omega

/-- The malformed-span input used against C5: one span with a negative
offset, one span with length zero. -/
def malformedStyles : List StyleAnnotation :=
  [⟨some true, [⟨-2, 3⟩]⟩, ⟨some true, [⟨0, 0⟩]⟩]

/-- C5 (counterexample): given a negative-offset span and a zero-length
span, `classify_spans` returns normally — the handwritten set is exactly
the three offsets `-2, -1, 0` of the negative-offset span (silently
accepted) and the zero-length span contributes nothing (silently
skipped) — contradicting the claim that construction fails fast on a
malformed span. -/
theorem c5_counterexample :
    (classify_spans malformedStyles).handwritten.card = 3
    ∧ (-2 : Int) ∈ (classify_spans malformedStyles).handwritten
    ∧ (-1 : Int) ∈ (classify_spans malformedStyles).handwritten
    ∧ (0 : Int) ∈ (classify_spans malformedStyles).handwritten
    ∧ (classify_spans malformedStyles).printed.card = 0 := by
  decide

/-- C5 (amended): construction of the coverage sets never fails: a span
with non-positive length contributes no offsets (it is silently
skipped), and a span with negative offset and positive length is
silently accepted — its start offset is added to the set. -/
theorem c5_malformed_spans (sp : Span) :
    (sp.length ≤ 0 → ∀ b : Bool,
        classify_spans [{ is_handwritten := some b, spans := [sp] }] =
          { handwritten := ∅, printed := ∅ })
    ∧ (0 < sp.length →
        sp.offset ∈ (classify_spans
          [{ is_handwritten := some true, spans := [sp] }]).handwritten) := by
  constructor
  · intro h b
    have hof : sp.offsets = [] := by
      simp [Span.offsets, Int.toNat_of_nonpos h]
    cases b <;> simp [classify_spans, classifyStep, addSpans, hof]
  · intro h
    have hmem : sp.offset ∈ sp.offsets := mem_offsets.mpr ⟨le_refl _, by omega⟩
    simp only [classify_spans, List.foldl_cons, List.foldl_nil, classifyStep]
    rw [mem_addSpans]
    exact Or.inr ⟨sp, List.mem_singleton.mpr rfl, hmem⟩

/-- Witness for the amended C5 at concrete malformed spans. -/
theorem c5_malformed_spans_witness :
    classify_spans [{ is_handwritten := some true, spans := [{ offset := 5, length := 0 }] }] =
        { handwritten := ∅, printed := ∅ }
    ∧ (-7 : Int) ∈ (classify_spans
        [{ is_handwritten := some true,
           spans := [{ offset := -7, length := 2 }] }]).handwritten :=
  ⟨(c5_malformed_spans { offset := 5, length := 0 }).1 (by decide) true,
   (c5_malformed_spans { offset := -7, length := 2 }).2 (by decide)⟩

/-- C10: a word's verdict depends only on coverage membership of the
offsets in the word's own half-open span range — two coverage-set pairs
agreeing there yield the same verdict. -/
theorem c10_verdict_local (w : Word) (m1 m2 : SpanMap) (sp : Span)
    (hsp : w.span = some sp)
    (hagree : ∀ o : Int, sp.offset ≤ o → o < sp.offset + sp.length →
      ((o ∈ m1.handwritten ↔ o ∈ m2.handwritten) ∧ (o ∈ m1.printed ↔ o ∈ m2.printed))) :
    word_is_handwritten w m1 = word_is_handwritten w m2 := by
  have hhw : count_overlap m1.handwritten sp = count_overlap m2.handwritten sp := by
    unfold count_overlap
    apply List.countP_congr
    intro o ho
    have hb := mem_rangeList.mp ho
    simpa using (hagree o hb.1 hb.2).1
  have hpr : count_overlap m1.printed sp = count_overlap m2.printed sp := by
    unfold count_overlap
    apply List.countP_congr
    intro o ho
    have hb := mem_rangeList.mp ho
    simpa using (hagree o hb.1 hb.2).2
  simp only [word_is_handwritten, hsp, hhw, hpr]

/-- The concrete word and coverage pairs witnessing C10: the two maps
agree on the word's range `[0,2)` and differ outside it. -/
def w10 : Word := ⟨['h'], some ⟨0, 2⟩, none⟩

/-- First coverage pair for the C10 witness. -/
def m10a : SpanMap := ⟨{0, 5}, ∅⟩

/-- Second coverage pair for the C10 witness. -/
def m10b : SpanMap := ⟨{0, 7}, {9}⟩

/-- Witness for C10: coverage pairs agreeing on the word's range `[0,2)`
but differing outside it give the same verdict. -/
theorem c10_verdict_local_witness :
    word_is_handwritten w10 m10a = word_is_handwritten w10 m10b := by
  apply c10_verdict_local _ _ _ ⟨0, 2⟩ rfl
  intro o h1 h2
  have h1' : (0 : Int) ≤ o := h1
  have h2' : o < 2 := h2
  have : o = 0 ∨ o = 1 := by omega
  rcases this with rfl | rfl
  · exact ⟨by decide, by decide⟩
  · exact ⟨by decide, by decide⟩

/-! ### Claims C2 and C6: line-level aggregation -/

/-- A line covering offsets `[0, 10)`, for the concrete majority
examples. -/
def line10ex : Line := ⟨['x'], [⟨0, 10⟩]⟩

/-- A one-character word anchored at offset `i`. -/
def wordAt (i : Int) : Word := ⟨['a'], some ⟨i, 1⟩, none⟩

/-- Four words: two handwritten, two printed under `m4ex`. -/
def words4ex : List Word := [wordAt 0, wordAt 1, wordAt 2, wordAt 3]

/-- Coverage making offsets 0–1 handwritten and 2–3 printed. -/
def m4ex : SpanMap := ⟨{0, 1}, {2, 3}⟩

/-- Five words: three handwritten, two printed under `m5ex`. -/
def words5ex : List Word := [wordAt 0, wordAt 1, wordAt 2, wordAt 3, wordAt 4]

/-- Coverage making offsets 0–2 handwritten and 3–4 printed. -/
def m5ex : SpanMap := ⟨{0, 1, 2}, {3, 4}⟩

/-- C2: the line tag is Handwritten exactly when the fraction of
Handwritten-verdict words over `max(n, 1)` strictly exceeds `0.5`; in
particular a 2-vs-2 line aggregates to Printed and a 3-vs-2 line to
Handwritten. -/
theorem c2_line_majority :
    (∀ (line : Line) (words : List Word) (m : SpanMap),
       line_tag_is_hw line words m = true ↔
         ((line_hw_count line words m : ℚ) /
           ((max (line_words line words).length 1 : ℕ) : ℚ) > 0.5))
    ∧ line_tag_is_hw line10ex words4ex m4ex = false
    ∧ line_tag_is_hw line10ex words5ex m5ex = true := by
  refine ⟨?_, ?_, ?_⟩
  · intro line words m
    have htot : line_total line words = max (line_words line words).length 1 := by
      unfold line_total
      split <;> omega
    rw [line_tag_is_hw, htot]
    exact decide_eq_true_iff
  · have hc : line_hw_count line10ex words4ex m4ex = 2 := by decide
    have ht : line_total line10ex words4ex = 4 := by decide
    rw [line_tag_is_hw, hc, ht, decide_eq_false_iff_not]
    push_cast
    norm_num
  · have hc : line_hw_count line10ex words5ex m5ex = 3 := by decide
    have ht : line_total line10ex words5ex = 5 := by decide
    rw [line_tag_is_hw, hc, ht]
    rw [decide_eq_true_iff]
    push_cast
    norm_num

/-- The line and words of the C6 counterexample: `w6a` is anchored inside
the line's span, `w6b` has no span at all. -/
def line6ex : Line := ⟨['x'], [⟨0, 11⟩]⟩

/-- A word anchored at offsets `[0, 5)`. -/
def w6a : Word := ⟨['h'], some ⟨0, 5⟩, none⟩

/-- A word with no span. -/
def w6b : Word := ⟨['w'], none, none⟩

/-- C6 (counterexample): the aggregation population of a line holding
the anchored word `w6a` and the span-less word `w6b` is `[w6a]` alone,
with `n = 1` — the span-less word is excluded, not counted toward `n`
as an Unknown contributor as the claim states. -/
theorem c6_counterexample :
    line_words line6ex [w6a, w6b] = [w6a] ∧ line_total line6ex [w6a, w6b] = 1 := by
  decide

/-- C6 (amended): the words used in a line's aggregation are re-derived
from offset comparisons — a word belongs exactly when it has a span, the
line has spans, and the word's start offset falls inside one of the
line's spans — and a word lacking a span is excluded entirely. -/
theorem c6_line_words_by_offsets (line : Line) (words : List Word) (w : Word) :
    (w ∈ line_words line words ↔
       w ∈ words ∧ ∃ wsp, w.span = some wsp ∧ line.spans ≠ [] ∧
         ∃ s ∈ line.spans, s.offset ≤ wsp.offset ∧ wsp.offset < s.offset + s.length)
    ∧ (w.span = none → w ∉ line_words line words) := by
  have hiff : w ∈ line_words line words ↔
      w ∈ words ∧ ∃ wsp, w.span = some wsp ∧ line.spans ≠ [] ∧
        ∃ s ∈ line.spans, s.offset ≤ wsp.offset ∧ wsp.offset < s.offset + s.length := by
    rw [line_words, List.mem_filter]
    rcases h : w.span with _ | wsp
    · simp [h]
    · simp only [h, Bool.and_eq_true, Bool.not_eq_true', List.any_eq_true,
        decide_eq_true_eq, ge_iff_le, Option.some.injEq, List.isEmpty_eq_false]
      constructor
      · rintro ⟨hw, hne, s, hs, h1, h2⟩
        exact ⟨hw, wsp, rfl, by simpa using hne, s, hs, h1, h2⟩
      · rintro ⟨hw, wsp', heq, hne, s, hs, h1, h2⟩
        cases heq
        exact ⟨hw, by simpa using hne, s, hs, h1, h2⟩
  refine ⟨hiff, ?_⟩
  intro hn hmem
  obtain ⟨_, wsp, heq, _⟩ := hiff.mp hmem
  rw [hn] at heq
  exact Option.noConfusion heq

/-- Witness for the amended C6: the span-less word is not in the
aggregation population. -/
theorem c6_line_words_by_offsets_witness : w6b ∉ line_words line6ex [w6a, w6b] :=
  (c6_line_words_by_offsets line6ex [w6a, w6b] w6b).2 rfl

/-! ### Claim C7: document statistics -/

theorem foldl_add_eq {α : Type} (l : List α) (f : α → Nat) (n : Nat) :
    l.foldl (fun acc x => acc + f x) n = n + (l.map f).sum := by
  induction l generalizing n with
  | nil => simp
  | cons x xs ih => simp [ih, Nat.add_assoc]

theorem foldl_append_eq {α β : Type} (l : List α) (g : α → List β) (init : List β) :
    l.foldl (fun acc x => acc ++ g x) init = init ++ (l.map g).flatten := by
  induction l generalizing init with
  | nil => simp
  | cons x xs ih => simp [ih]

theorem sum_map_add {α : Type} (l : List α) (f g : α → Nat) :
    (l.map (fun x => f x + g x)).sum = (l.map f).sum + (l.map g).sum := by
  induction l with
  | nil => simp
  | cons x xs ih =>
    simp only [List.map_cons, List.sum_cons, ih]
    omega

/-- Every word of a page falls into exactly one of the three verdict
buckets of the page loop. -/
theorem page_words_partition (p : Page) (m : SpanMap) :
    p.words.length =
      (page_hw_words p m).length + (page_pr_words p m).length
        + (page_unknown_words p m).length := by
  rw [page_hw_words, page_pr_words, page_unknown_words,
    ← List.countP_eq_length_filter, ← List.countP_eq_length_filter,
    ← List.countP_eq_length_filter]
  induction p.words with
  | nil => simp
  | cons w ws ih =>
    simp only [List.length_cons, List.countP_cons, ih]
    rcases h : word_is_handwritten w m with _ | b
    · simp [h]
      omega
    · cases b <;> (simp [h]; omega)

/-- The one-page document of the C7 counterexample: a single word with
no span, hence Unknown verdict. -/
def pages7ex : List Page := [⟨1, [⟨['u'], none, none⟩], []⟩]

/-- Empty coverage for the C7 counterexample. -/
def m7ex : SpanMap := ⟨∅, ∅⟩

/-- C7 (counterexample): on a document whose only word is Unknown, the
summary's printed-word count is `1` while the sum of the per-page
printed counts is `0` — the document "printed" figure is not the sum of
the per-page printed counts. -/
theorem c7_counterexample :
    doc_printed_words pages7ex m7ex = 1
    ∧ (pages7ex.map (fun p => (page_pr_words p m7ex).length)).sum = 0 := by
  decide

/-- C7 (amended): total and handwritten counts are sums of per-page
counts; the summary's printed count is `total − handwritten`, i.e. the
sum of per-page printed *plus unknown* counts (no separate unknown count
is reported); the mean confidence is computed once over the flattened
word list, `0` when there are no words. -/
theorem c7_doc_stats (pages : List Page) (m : SpanMap) :
    doc_total_words pages = (pages.map (fun p => p.words.length)).sum
    ∧ doc_total_hw_words pages m = (pages.map (fun p => (page_hw_words p m).length)).sum
    ∧ doc_printed_words pages m =
        (pages.map (fun p =>
          (page_pr_words p m).length + (page_unknown_words p m).length)).sum
    ∧ doc_avg_conf pages =
        (if doc_total_words pages = 0 then 0
         else (pages.map (fun p => (p.words.map (fun w => w.confidence.getD 0)).sum)).sum /
           (doc_total_words pages : ℚ)) := by
  have h1 : doc_total_words pages = (pages.map (fun p => p.words.length)).sum := by
    rw [doc_total_words, foldl_add_eq, Nat.zero_add]
  have h2 : doc_total_hw_words pages m =
      (pages.map (fun p => (page_hw_words p m).length)).sum := by
    rw [doc_total_hw_words, foldl_add_eq, Nat.zero_add]
  have hpart : (pages.map (fun p => p.words.length)).sum =
      (pages.map (fun p => (page_hw_words p m).length)).sum
        + (pages.map (fun p =>
            (page_pr_words p m).length + (page_unknown_words p m).length)).sum := by
    rw [← sum_map_add]
    apply congrArg
    apply List.map_congr_left
    intro p _
    rw [page_words_partition p m]
    omega
  have h3 : doc_printed_words pages m =
      (pages.map (fun p =>
        (page_pr_words p m).length + (page_unknown_words p m).length)).sum := by
    rw [doc_printed_words, h1, h2, hpart]
    omega
  have hflat : all_confidences pages =
      (pages.map (fun p => p.words.map (fun w => w.confidence.getD 0))).flatten := by
    rw [all_confidences, foldl_append_eq, List.nil_append]
  have hlen : (all_confidences pages).length = doc_total_words pages := by
    rw [hflat, List.length_flatten, h1, List.map_map]
    apply congrArg
    apply List.map_congr_left
    intro p _
    simp
  have h4 : doc_avg_conf pages =
      (if doc_total_words pages = 0 then 0
       else (pages.map (fun p => (p.words.map (fun w => w.confidence.getD 0)).sum)).sum /
         (doc_total_words pages : ℚ)) := by
    rw [doc_avg_conf, hlen]
    by_cases h : doc_total_words pages = 0
    · simp [h]
    · rw [if_neg h, if_neg h, hflat, List.sum_flatten, List.map_map]
      rfl
  exact ⟨h1, h2, h3, h4⟩

/-! ### Claims C8 and C9: transcript word wrap -/

theorem splitWS_ws_cons {c : Char} (h : c.isWhitespace = true) (s : List Char) :
    splitWS (c :: s) = splitWS s := by
  cases s with
  | nil => simp [splitWS, h]
  | cons d rest => simp [splitWS, h]

theorem splitWS_cons_token_space {t : List Char} (hall : ∀ c ∈ t, c.isWhitespace = false) :
    ∀ {c : Char}, c.isWhitespace = false →
      ∀ s, splitWS (c :: t ++ ' ' :: s) = (c :: t) :: splitWS s := by
  induction t with
  | nil =>
    intro c hc s
    simp [splitWS, hc]
  | cons c2 t' ih =>
    intro c hc s
    have hc2 : c2.isWhitespace = false := hall c2 (by simp)
    have hall' : ∀ x ∈ t', x.isWhitespace = false := fun x hx => hall x (by simp [hx])
    show splitWS (c :: c2 :: (t' ++ ' ' :: s)) = _
    rw [splitWS, if_neg (by simp [hc]), if_neg (by simp [hc2])]
    rw [show c2 :: (t' ++ ' ' :: s) = c2 :: t' ++ ' ' :: s from rfl, ih hall' hc2 s]

theorem splitWS_token_space {t : List Char} (ht : IsToken t) (s : List Char) :
    splitWS (t ++ ' ' :: s) = t :: splitWS s := by
  obtain ⟨hne, hall⟩ := ht
  cases t with
  | nil => exact absurd rfl hne
  | cons c t' =>
    exact splitWS_cons_token_space (fun x hx => hall x (by simp [hx]))
      (hall c (by simp)) s

theorem splitWS_cons_token {t : List Char} (hall : ∀ c ∈ t, c.isWhitespace = false) :
    ∀ {c : Char}, c.isWhitespace = false → splitWS (c :: t) = [c :: t] := by
  induction t with
  | nil =>
    intro c hc
    simp [splitWS, hc]
  | cons c2 t' ih =>
    intro c hc
    have hc2 : c2.isWhitespace = false := hall c2 (by simp)
    have hall' : ∀ x ∈ t', x.isWhitespace = false := fun x hx => hall x (by simp [hx])
    rw [splitWS, if_neg (by simp [hc]), if_neg (by simp [hc2]), ih hall' hc2]

theorem splitWS_token {t : List Char} (ht : IsToken t) : splitWS t = [t] := by
  obtain ⟨hne, hall⟩ := ht
  cases t with
  | nil => exact absurd rfl hne
  | cons c t' =>
    exact splitWS_cons_token (fun x hx => hall x (by simp [hx])) (hall c (by simp))

/-- A string made of whitespace characters and space-terminated tokens,
carrying its token list: the shape every partially built wrap output
has. -/
inductive Chunks : List Char → List (List Char) → Prop
  | nil : Chunks [] []
  | ws (c : Char) (h : c.isWhitespace = true) {s : List Char} {ts : List (List Char)} :
      Chunks s ts → Chunks (c :: s) ts
  | tok (t : List Char) (ht : IsToken t) {s : List Char} {ts : List (List Char)} :
      Chunks s ts → Chunks (t ++ ' ' :: s) (t :: ts)

theorem Chunks.splitWS_eq {s : List Char} {ts : List (List Char)}
    (h : Chunks s ts) : splitWS s = ts := by
  induction h with
  | nil => rfl
  | ws c hc _ ih => rw [splitWS_ws_cons hc, ih]
  | tok t ht _ ih => rw [splitWS_token_space ht, ih]

theorem Chunks.append {a : List Char} {ts1 : List (List Char)}
    {b : List Char} {ts2 : List (List Char)}
    (h1 : Chunks a ts1) (h2 : Chunks b ts2) : Chunks (a ++ b) (ts1 ++ ts2) := by
  induction h1 with
  | nil => simpa using h2
  | ws c hc _ ih => exact Chunks.ws c hc ih
  | tok t ht _ ih =>
    have := Chunks.tok t ht ih
    simpa [List.append_assoc] using this

theorem chunks_indent : Chunks indent [] := by
  have h : (' ' : Char).isWhitespace = true := by decide
  exact Chunks.ws ' ' h (Chunks.ws ' ' h (Chunks.ws ' ' h (Chunks.ws ' ' h Chunks.nil)))

theorem chunks_token_space {w : List Char} (ht : IsToken w) :
    Chunks (w ++ [' ']) [w] :=
  Chunks.tok w ht Chunks.nil

theorem any_nonws_of_token {w : List Char} (ht : IsToken w) (l1 l2 : List Char) :
    ((l1 ++ (w ++ l2)).any fun c => !c.isWhitespace) = true := by
  obtain ⟨hne, hall⟩ := ht
  cases w with
  | nil => exact absurd rfl hne
  | cons c w' =>
    rw [List.any_eq_true]
    exact ⟨c, by simp, by simp [hall c (by simp)]⟩

theorem wrap_fold_any (ws : List (List Char)) {w : List Char} (htw : IsToken w)
    (st : List (List Char) × List Char) :
    ((((ws ++ [w]).foldl wrapStep st).2.any fun c => !c.isWhitespace) = true) := by
  rw [List.foldl_append, List.foldl_cons, List.foldl_nil]
  by_cases h : (ws.foldl wrapStep st).2.length + w.length + 1 > 80
  · rw [wrapStep, if_pos h]
    simpa [List.append_assoc] using any_nonws_of_token htw indent [' ']
  · rw [wrapStep, if_neg h]
    simpa [List.append_assoc] using
      any_nonws_of_token htw (ws.foldl wrapStep st).2 [' ']

theorem wrap_fold_chunks (ws : List (List Char)) (hts : ∀ w ∈ ws, IsToken w) :
    ∀ (acc : List (List Char)) (line : List Char) (done : List (List Char)),
      Chunks (acc.flatten ++ line) done →
      Chunks ((ws.foldl wrapStep (acc, line)).1.flatten
          ++ (ws.foldl wrapStep (acc, line)).2) (done ++ ws) := by
  induction ws with
  | nil =>
    intro acc line done h
    simpa using h
  | cons w ws' ih =>
    intro acc line done h
    have htw : IsToken w := hts w (by simp)
    have hts' : ∀ x ∈ ws', IsToken x := fun x hx => hts x (by simp [hx])
    rw [List.foldl_cons]
    by_cases hov : line.length + w.length + 1 > 80
    · rw [show wrapStep (acc, line) w = (acc ++ [line], indent ++ w ++ [' ']) from by
        simp [wrapStep, hov]]
      have hnew : Chunks ((acc ++ [line]).flatten ++ (indent ++ w ++ [' ']))
          ((done ++ [w]) : List (List Char)) := by
        have htail : Chunks (indent ++ (w ++ [' '])) ([] ++ [w]) :=
          chunks_indent.append (chunks_token_space htw)
        have := h.append htail
        simpa [List.append_assoc] using this
      have := ih hts' (acc ++ [line]) (indent ++ w ++ [' ']) (done ++ [w]) hnew
      simpa using this
    · rw [show wrapStep (acc, line) w = (acc, line ++ w ++ [' ']) from by
        simp [wrapStep, hov]]
      have hnew : Chunks (acc.flatten ++ (line ++ w ++ [' ']))
          ((done ++ [w]) : List (List Char)) := by
        have := h.append (chunks_token_space htw)
        simpa [List.append_assoc] using this
      have := ih hts' acc (line ++ w ++ [' ']) (done ++ [w]) hnew
      simpa using this

theorem wrapWords_eq_of_any (ws : List (List Char))
    (h : ((ws.foldl wrapStep ([], indent)).2.any fun c => !c.isWhitespace) = true) :
    wrapWords ws =
      (ws.foldl wrapStep ([], indent)).1 ++ [(ws.foldl wrapStep ([], indent)).2] := by
  rw [wrapWords]
  simp only [if_pos h]

theorem wrap_roundtrip (ws : List (List Char)) (h : ∀ w ∈ ws, IsToken w) :
    splitWS (wrapWords ws).flatten = ws := by
  rcases List.eq_nil_or_concat ws with rfl | ⟨ws', w, rfl⟩
  · rfl
  · rw [List.concat_eq_append] at h ⊢
    have hchunks := wrap_fold_chunks (ws' ++ [w]) h [] indent []
      (by simpa using chunks_indent)
    have hany := wrap_fold_any ws' (h w (by simp)) ([], indent)
    rw [wrapWords_eq_of_any _ hany, List.flatten_append]
    simpa using hchunks.splitWS_eq

theorem splitWS_joinSpace : ∀ (ts : List (List Char)), (∀ t ∈ ts, IsToken t) →
    splitWS (joinSpace ts) = ts := by
  intro ts
  induction ts with
  | nil => intro _; rfl
  | cons t rest ih =>
    intro h
    rcases rest with _ | ⟨t2, rest'⟩
    · simpa [joinSpace] using splitWS_token (h t (by simp))
    · show splitWS (t ++ ' ' :: joinSpace (t2 :: rest')) = t :: t2 :: rest'
      rw [splitWS_token_space (h t (by simp))]
      rw [ih (fun x hx => h x (by simp [hx]))]

/-- A page whose single handwritten word's content contains a space —
the C8 counterexample input. -/
def p8bad : Page := ⟨1, [⟨['a', ' ', 'b'], some ⟨0, 3⟩, none⟩], []⟩

/-- Coverage making the C8 counterexample word handwritten. -/
def m8bad : SpanMap := ⟨{0, 1, 2}, ∅⟩

/-- C8 (counterexample): when a Handwritten-verdict word's content
contains internal whitespace (`"a b"`), concatenating the emitted
transcript lines and splitting on whitespace yields `["a", "b"]`, not
the original one-word sequence `["a b"]` — the word is split. -/
theorem c8_counterexample :
    splitWS (page_transcript p8bad m8bad).flatten ≠
      (page_hw_words p8bad m8bad).map (fun w => w.content) := by
  decide

/-- C8 (amended): for every page whose Handwritten-verdict words all
have nonempty, whitespace-free content, concatenating the emitted
transcript lines and splitting on whitespace reproduces exactly the
ordered sequence of those words' contents, and a page with zero
Handwritten-verdict words emits no transcript lines. -/
theorem c8_transcript_roundtrip (p : Page) (m : SpanMap)
    (h : ∀ w ∈ page_hw_words p m, IsToken w.content) :
    splitWS (page_transcript p m).flatten
      = (page_hw_words p m).map (fun w => w.content)
    ∧ (page_hw_words p m = [] → page_transcript p m = []) := by
  constructor
  · rw [page_transcript]
    by_cases he : (page_hw_words p m).isEmpty
    · rw [if_pos he]
      rw [List.isEmpty_iff] at he
      simp only [he, List.flatten_nil, List.map_nil]
      rfl
    · rw [if_neg he]
      have htok : ∀ t ∈ (page_hw_words p m).map (fun w => w.content), IsToken t := by
        intro t ht
        obtain ⟨w, hw, rfl⟩ := List.mem_map.mp ht
        exact h w hw
      rw [splitWS_joinSpace _ htok]
      exact wrap_roundtrip _ htok
  · intro he
    rw [page_transcript, if_pos (List.isEmpty_iff.mpr he)]

/-- The two-token-word page of the C8 witness. -/
def p8ex : Page :=
  ⟨1, [⟨['h', 'i'], some ⟨0, 2⟩, none⟩, ⟨['y', 'o'], some ⟨3, 2⟩, none⟩], []⟩

/-- Coverage making both C8 witness words handwritten. -/
def m8ex : SpanMap := ⟨{0, 1, 3, 4}, ∅⟩

/-- Witness for the amended C8 on a concrete two-word page. -/
theorem c8_transcript_roundtrip_witness :
    splitWS (page_transcript p8ex m8ex).flatten
      = (page_hw_words p8ex m8ex).map (fun w => w.content)
    ∧ (page_hw_words p8ex m8ex = [] → page_transcript p8ex m8ex = []) :=
  c8_transcript_roundtrip p8ex m8ex (by
    intro w hw
    have hl : page_hw_words p8ex m8ex =
        [⟨['h', 'i'], some ⟨0, 2⟩, none⟩, ⟨['y', 'o'], some ⟨3, 2⟩, none⟩] := by
      decide
    rw [hl] at hw
    simp only [List.mem_cons, List.not_mem_nil, or_false] at hw
    rcases hw with rfl | rfl <;> exact ⟨by decide, by decide⟩)

/-- A line satisfies the wrap-width contract relative to a token list:
it fits in 80 characters, or it is the indent, one single token, and a
trailing space. -/
def LineFits (tokens : List (List Char)) (l : List Char) : Prop :=
  l.length ≤ 80 ∨ ∃ w ∈ tokens, l = indent ++ w ++ [' ']

theorem wrap_fold_width (ws tokens : List (List Char)) (hsub : ∀ x ∈ ws, x ∈ tokens) :
    ∀ (acc : List (List Char)) (line : List Char),
      (∀ l ∈ acc, LineFits tokens l) →
      (line = indent ∨ LineFits tokens line) →
      (∀ l ∈ (ws.foldl wrapStep (acc, line)).1, LineFits tokens l)
      ∧ ((ws.foldl wrapStep (acc, line)).2 = indent
          ∨ LineFits tokens (ws.foldl wrapStep (acc, line)).2) := by
  induction ws with
  | nil =>
    intro acc line hacc hline
    exact ⟨hacc, hline⟩
  | cons w ws' ih =>
    intro acc line hacc hline
    have hw : w ∈ tokens := hsub w (by simp)
    have hsub' : ∀ x ∈ ws', x ∈ tokens := fun x hx => hsub x (by simp [hx])
    have hlineFits : LineFits tokens line := by
      rcases hline with rfl | hf
      · exact Or.inl (by decide)
      · exact hf
    rw [List.foldl_cons]
    by_cases hov : line.length + w.length + 1 > 80
    · rw [show wrapStep (acc, line) w = (acc ++ [line], indent ++ w ++ [' ']) from by
        simp [wrapStep, hov]]
      refine ih hsub' (acc ++ [line]) (indent ++ w ++ [' ']) ?_ ?_
      · intro l hl
        rcases List.mem_append.mp hl with hl | hl
        · exact hacc l hl
        · rw [List.mem_singleton.mp hl]
          exact hlineFits
      · exact Or.inr (Or.inr ⟨w, hw, rfl⟩)
    · rw [show wrapStep (acc, line) w = (acc, line ++ w ++ [' ']) from by
        simp [wrapStep, hov]]
      refine ih hsub' acc (line ++ w ++ [' ']) hacc ?_
      refine Or.inr (Or.inl ?_)
      simp only [List.length_append, List.length_cons, List.length_nil]
      omega

theorem wrapWords_eq_of_not_any (ws : List (List Char))
    (h : ((ws.foldl wrapStep ([], indent)).2.any fun c => !c.isWhitespace) = false) :
    wrapWords ws = (ws.foldl wrapStep ([], indent)).1 := by
  rw [wrapWords]
  simp only [h, Bool.false_eq_true, if_false]

/-- The page of the C9 counterexample: one handwritten word of 76
characters — shorter than the 80-character limit, but too long to fit
after the four-space indent and trailing space. -/
def p9ex : Page := ⟨1, [⟨List.replicate 76 'a', some ⟨0, 1⟩, none⟩], []⟩

/-- Coverage making the C9 word handwritten. -/
def m9ex : SpanMap := ⟨{0}, ∅⟩

/-- C9 (counterexample): the emitted line for a 76-character word is 81
characters long (indent 4 + word 76 + trailing space 1), exceeding the
80-character limit even though no word on the page has content longer
than 80 — the claim's exception (`content alone longer than
maxLineWidth`) does not cover it. -/
theorem c9_counterexample :
    (indent ++ List.replicate 76 'a' ++ [' ']) ∈ page_transcript p9ex m9ex
    ∧ 80 < (indent ++ List.replicate 76 'a' ++ [' ']).length
    ∧ (∀ w ∈ p9ex.words, w.content.length ≤ 80) := by
  decide

/-- C9 (amended): every emitted transcript line either fits in 80
characters or consists of the four-space indent, one single
whitespace-token of the handwritten text, and a trailing space, the
token being longer than 75 characters (so the line, at token length plus
5, exceeds 80); wrapping never splits a token across lines. -/
theorem c9_wrap_width (p : Page) (m : SpanMap) (l : List Char)
    (hl : l ∈ page_transcript p m) :
    l.length ≤ 80
    ∨ ∃ w ∈ splitWS (joinSpace ((page_hw_words p m).map (fun wd => wd.content))),
        l = indent ++ w ++ [' '] ∧ 75 < w.length := by
  rw [page_transcript] at hl
  by_cases he : (page_hw_words p m).isEmpty
  · rw [if_pos he] at hl
    exact absurd hl (List.not_mem_nil l)
  · rw [if_neg he] at hl
    set tokens := splitWS (joinSpace ((page_hw_words p m).map (fun wd => wd.content)))
      with htok
    have hinv := wrap_fold_width tokens tokens (fun x hx => hx) [] indent
      (by intro l' hl'; cases hl') (Or.inl rfl)
    have resolve : ∀ l', LineFits tokens l' →
        l'.length ≤ 80 ∨ ∃ w ∈ tokens, l' = indent ++ w ++ [' '] ∧ 75 < w.length := by
      intro l' hf
      rcases hf with h80 | ⟨w, hwmem, rfl⟩
      · exact Or.inl h80
      · by_cases hw75 : w.length ≤ 75
        · refine Or.inl ?_
          simp only [List.length_append, List.length_cons, List.length_nil, indent]
          omega
        · exact Or.inr ⟨w, hwmem, rfl, by omega⟩
    by_cases hany : ((tokens.foldl wrapStep ([], indent)).2.any fun c => !c.isWhitespace) = true
    · rw [wrapWords_eq_of_any _ hany] at hl
      rcases List.mem_append.mp hl with hmem | hmem
      · exact resolve l (hinv.1 l hmem)
      · rw [List.mem_singleton.mp hmem]
        rcases hinv.2 with hid | hfit
        · rw [hid]
          exact Or.inl (by decide)
        · exact resolve _ hfit
    · rw [wrapWords_eq_of_not_any _ (Bool.not_eq_true _ ▸ hany)] at hl
      exact resolve l (hinv.1 l hl)

/-- Witness for the amended C9 at the 81-character line of the
76-character-word page. -/
theorem c9_wrap_width_witness :
    (indent ++ List.replicate 76 'a' ++ [' ']).length ≤ 80
    ∨ ∃ w ∈ splitWS (joinSpace ((page_hw_words p9ex m9ex).map (fun wd => wd.content))),
        indent ++ List.replicate 76 'a' ++ [' '] = indent ++ w ++ [' '] ∧ 75 < w.length :=
  c9_wrap_width p9ex m9ex _ (by decide)

end OcrHandwriting
